import Mathlib

/-!
Verification of the 2D pseudo-spectral DHIT solver
(`spectral_LES_solver/spectral_solver_DHIT_v2.py`).

Shallow embedding conventions:
* a frequency-domain field of size `n × m` is a function `ℕ → ℕ → ℂ`; a
  physical-space field is a function `ℕ → ℕ → ℝ`; theorems about fields
  quantify over the indices actually present in the corresponding numpy
  array (`i < n`, `j < m`), since a function on `ℕ` has artifact values
  outside that range;
* floating-point numbers are modelled as exact real numbers;
* `pyfftw.FFTW(..., FFTW_FORWARD)` is the unnormalised 2D DFT and
  `pyfftw.FFTW(..., FFTW_BACKWARD)` is the inverse DFT normalised by
  `1/(n*m)` (pyfftw's default `normalise_idft=True`);
* in-place numpy mutations (the periodic-boundary fill `pbc`, the
  forcing of mode `(0,0)` to zero) are modelled as functions returning
  the final state of the mutated array.
-/

noncomputable section

open scoped Classical

namespace Turb2D

open Finset

/-- Forward DFT kernel `exp(-2*pi*I*i*k/n)`. -/
def dftKer (n i k : ℕ) : ℂ :=
  Complex.exp (-(2 * (Real.pi : ℂ) * Complex.I * (i : ℂ) * (k : ℂ)) / (n : ℂ))

/-- Inverse DFT kernel `exp(2*pi*I*k*i/n)`. -/
def idftKer (n k i : ℕ) : ℂ :=
  Complex.exp ((2 * (Real.pi : ℂ) * Complex.I * (k : ℂ) * (i : ℂ)) / (n : ℂ))

/-- Unnormalised forward 2D DFT of an `n × m` complex field
(`pyfftw.FFTW(a, b, axes=(0,1), direction=FFTW_FORWARD)`). -/
def fft2 (n m : ℕ) (f : ℕ → ℕ → ℂ) : ℕ → ℕ → ℂ := fun k l =>
  ∑ i ∈ range n, ∑ j ∈ range m, f i j * dftKer n i k * dftKer m j l

/-- Inverse 2D DFT of an `n × m` complex field, normalised by `1/(n*m)`
(`pyfftw.FFTW(a, b, axes=(0,1), direction=FFTW_BACKWARD)` with pyfftw's
default idft normalisation). -/
def ifft2 (n m : ℕ) (F : ℕ → ℕ → ℂ) : ℕ → ℕ → ℂ := fun x y =>
  (∑ k ∈ range n, ∑ l ∈ range m, F k l * idftKer n k x * idftKer m l y) /
    ((n * m : ℕ) : ℂ)

/-- `np.fft.fftfreq(n, 1/n)`: the periodic-ordering integer wavenumbers
`0, 1, ..., n/2-1, -n/2, ..., -1` (source lines 689-690). -/
def kfreq (n : ℕ) (i : ℕ) : ℝ := if 2 * i < n then (i : ℝ) else (i : ℝ) - (n : ℝ)

/-- Squared-wavenumber field `k2 = kx*kx + ky*ky` with the `(0,0)` entry
overwritten by `1.0e-12` (source lines 712-713; the same construction is
used for the coarse grid in `write_data`, lines 564-570). -/
def k2F (n m : ℕ) : ℕ → ℕ → ℝ := fun i j =>
  if i = 0 ∧ j = 0 then 1 / 10 ^ 12 else kfreq n i ^ 2 + kfreq m j ^ 2

/-- Wavenumber vector built inside `energy_spectrum` (lines 269-278) and
`decay_ic` (lines 164-173): `kx[i] = 2*pi/(n*dx) * fftfreq-value`, then
`kx[0]` is overwritten by `epsilon = 1.0e-6`.  `dx` is the module-level
grid spacing read by `energy_spectrum` from global scope. -/
def kxES (n : ℕ) (dx : ℝ) (i : ℕ) : ℝ :=
  if i = 0 then 1 / 10 ^ 6 else 2 * Real.pi / ((n : ℝ) * dx) * kfreq n i

/-- Wavenumber-magnitude field `kk = sqrt(kx**2 + ky**2)` of
`energy_spectrum` (line 290); `ky` is a copy of `kx` (line 275). -/
def kkES (n : ℕ) (dx : ℝ) (i j : ℕ) : ℝ :=
  Real.sqrt (kxES n dx i ^ 2 + kxES n dx j ^ 2)

/-- Per-mode energy density `es = pi*((abs(wf)/(nx*ny))**2)/kk` computed by
`energy_spectrum` (line 291) from the physical vorticity field `w`
(the forward transform of `w[0:nx,0:ny]`, line 286). -/
def esField (n : ℕ) (dx : ℝ) (w : ℕ → ℕ → ℝ) (i j : ℕ) : ℝ :=
  Real.pi * (Complex.abs (fft2 n n (fun a b => ((w a b : ℝ) : ℂ)) i j) /
    ((n : ℝ) * (n : ℝ))) ^ 2 / kkES n dx i j

/-- Maximum shell index `n = int(sqrt(nx*nx + ny*ny)/2.0) - 1`
(line 293), for the square grid `nx = ny = n`. -/
def nShells (n : ℕ) : ℕ := Nat.sqrt (n * n + n * n) / 2 - 1

/-- The set of modes contributing to radial shell `k`: the loop of lines
297-306 searches `kk[1:,1:]` (so both indices range over `[1, n)`) for
magnitudes strictly between `k - 0.5` and `k + 0.5`. -/
def shellSet (n : ℕ) (dx : ℝ) (k : ℕ) : Finset (ℕ × ℕ) :=
  ((Finset.Ico 1 n) ×ˢ (Finset.Ico 1 n)).filter fun p =>
    (k : ℝ) - 1 / 2 < kkES n dx p.1 p.2 ∧ kkES n dx p.1 p.2 < (k : ℝ) + 1 / 2

/-- Shell value `en[k] = np.sum(es[ii,jj]) / ic` (lines 304-306): the sum
of the density over the contributing modes divided by their count. -/
def enES (n : ℕ) (dx : ℝ) (w : ℕ → ℕ → ℝ) (k : ℕ) : ℝ :=
  (∑ p ∈ shellSet n dx k, esField n dx w p.1 p.2) / ((shellSet n dx k).card : ℝ)

/-- Auxiliary field `j1f = -1.0j*kx*wf/k2` of `nonlineardealiased`
(line 395). -/
def jd1f (kx : ℕ → ℝ) (k2 : ℕ → ℕ → ℝ) (wf : ℕ → ℕ → ℂ) : ℕ → ℕ → ℂ :=
  fun i j => -Complex.I * (kx i : ℂ) * wf i j / ((k2 i j : ℝ) : ℂ)

/-- Auxiliary field `j2f = 1.0j*ky*wf` (line 396; line 496 of `nonlinear`
is the identical expression). -/
def jd2f (ky : ℕ → ℝ) (wf : ℕ → ℕ → ℂ) : ℕ → ℕ → ℂ :=
  fun i j => Complex.I * (ky j : ℂ) * wf i j

/-- Auxiliary field `j3f = -1.0j*ky*wf/k2` of `nonlineardealiased`
(line 397). -/
def jd3f (ky : ℕ → ℝ) (k2 : ℕ → ℕ → ℝ) (wf : ℕ → ℕ → ℂ) : ℕ → ℕ → ℂ :=
  fun i j => -Complex.I * (ky j : ℂ) * wf i j / ((k2 i j : ℝ) : ℂ)

/-- Auxiliary field `j4f = 1.0j*kx*wf` (line 398; line 498 of `nonlinear`
is the identical expression). -/
def jd4f (kx : ℕ → ℝ) (wf : ℕ → ℕ → ℂ) : ℕ → ℕ → ℂ :=
  fun i j => Complex.I * (kx i : ℂ) * wf i j

/-- Auxiliary field `j1f = 1.0j*kx*wf/k2` of the non-dealiased `nonlinear`
(line 495).  Note the sign: `+1.0j`, not `-1.0j` as in line 395. -/
def jn1f (kx : ℕ → ℝ) (k2 : ℕ → ℕ → ℝ) (wf : ℕ → ℕ → ℂ) : ℕ → ℕ → ℂ :=
  fun i j => Complex.I * (kx i : ℂ) * wf i j / ((k2 i j : ℝ) : ℂ)

/-- Auxiliary field `j3f = 1.0j*ky*wf/k2` of the non-dealiased `nonlinear`
(line 497).  Note the sign: `+1.0j`, not `-1.0j` as in line 397. -/
def jn3f (ky : ℕ → ℝ) (k2 : ℕ → ℕ → ℝ) (wf : ℕ → ℕ → ℂ) : ℕ → ℕ → ℂ :=
  fun i j => Complex.I * (ky j : ℂ) * wf i j / ((k2 i j : ℝ) : ℂ)

/-- Corner-block zero padding of an `n × m` frequency field into a
`2n × 2m` field (lines 403-426): the low `n/2` frequencies stay at the low
indices, the high `n/2` frequencies move to the top of the padded range,
and the newly introduced middle band is zero.  The index arithmetic
`i - n` matches the source's slice pairing
`padded[2n - n/2:] = field[n/2:]` for even `n` (the solver's grids). -/
def pad2 (n m : ℕ) (f : ℕ → ℕ → ℂ) : ℕ → ℕ → ℂ := fun i j =>
  if (i < n / 2 ∨ (2 * n - n / 2 ≤ i ∧ i < 2 * n)) ∧
     (j < m / 2 ∨ (2 * m - m / 2 ≤ j ∧ j < 2 * m)) then
    f (if i < n / 2 then i else i - n) (if j < m / 2 then j else j - m)
  else 0

/-- Corner-block extraction of an `n × m` frequency field from a `2n × 2m`
field (lines 467-470), the inverse of the `pad2` index mapping. -/
def unpad2 (n m : ℕ) (g : ℕ → ℕ → ℂ) : ℕ → ℕ → ℂ := fun i j =>
  g (if i < n / 2 then i else i + n) (if j < m / 2 then j else j + m)

/-- Padded auxiliary field rescaled by `(nxe*nye)/(nx*ny)` (lines
428-431). -/
def padScaled (n m : ℕ) (f : ℕ → ℕ → ℂ) : ℕ → ℕ → ℂ := fun i j =>
  pad2 n m f i j * ((2 * n * (2 * m) : ℕ) : ℂ) / ((n * m : ℕ) : ℂ)

/-- Physical-space realisation `np.real(ifft(F))` of an `n × m` frequency
field. -/
def physOf (n m : ℕ) (F : ℕ → ℕ → ℂ) (x y : ℕ) : ℝ := (ifft2 n m F x y).re

/-- The dealiased Jacobian evaluator `nonlineardealiased(nx,ny,kx,ky,k2,wf)`
(lines 377-474): four auxiliary fields, 2x corner-padding with rescale,
inverse transforms, the physical-space product `j1*j2 - j3*j4`, a forward
transform at padded resolution, corner extraction and the inverse
rescale `(nx*ny)/(nxe*nye)`. -/
def nonlineardealiased (n m : ℕ) (kx ky : ℕ → ℝ) (k2 : ℕ → ℕ → ℝ)
    (wf : ℕ → ℕ → ℂ) : ℕ → ℕ → ℂ := fun i j =>
  unpad2 n m
    (fft2 (2 * n) (2 * m) (fun x y =>
      ((physOf (2 * n) (2 * m) (padScaled n m (jd1f kx k2 wf)) x y *
          physOf (2 * n) (2 * m) (padScaled n m (jd2f ky wf)) x y -
        physOf (2 * n) (2 * m) (padScaled n m (jd3f ky k2 wf)) x y *
          physOf (2 * n) (2 * m) (padScaled n m (jd4f kx wf)) x y : ℝ) : ℂ)))
    i j * ((n * m : ℕ) : ℂ) / ((2 * n * (2 * m) : ℕ) : ℂ)

/-- The non-dealiased Jacobian evaluator `nonlinear(nx,ny,kx,ky,k2,wf)`
(lines 477-531): the auxiliary fields of lines 495-498 (with `+1.0j` on
the `k2`-divided fields), inverse transforms at the native resolution,
the product `j1*j2 - j3*j4`, and a forward transform. -/
def nonlinear (n m : ℕ) (kx ky : ℕ → ℝ) (k2 : ℕ → ℕ → ℝ)
    (wf : ℕ → ℕ → ℂ) : ℕ → ℕ → ℂ := fun i j =>
  fft2 n m (fun x y =>
    ((physOf n m (jn1f kx k2 wf) x y * physOf n m (jd2f ky wf) x y -
      physOf n m (jn3f ky k2 wf) x y * physOf n m (jd4f kx wf) x y : ℝ) : ℂ)) i j

/-- Reference evaluator following the spec's words for claim C3
("identical derivative construction, but the product is formed at the
native N x N resolution without padding"): the auxiliary fields of the
dealiased variant (lines 395-398, signs included), inverse-transformed at
native resolution, multiplied, and forward-transformed. -/
def nonlinearNoPadRef (n m : ℕ) (kx ky : ℕ → ℝ) (k2 : ℕ → ℕ → ℝ)
    (wf : ℕ → ℕ → ℂ) : ℕ → ℕ → ℂ := fun i j =>
  fft2 n m (fun x y =>
    ((physOf n m (jd1f kx k2 wf) x y * physOf n m (jd2f ky wf) x y -
      physOf n m (jd3f ky k2 wf) x y * physOf n m (jd4f kx wf) x y : ℝ) : ℂ)) i j

/-- Formalisation of "the spectrum of `wf` is confined so that the
quadratic product is alias-free": the dealiased evaluation (which by the
2x padding is the exact, alias-error-free evaluation of the quadratic
product) agrees on the native grid with the same derivative construction
evaluated without padding. -/
def aliasFreeInput (n m : ℕ) (kx ky : ℕ → ℝ) (k2 : ℕ → ℕ → ℝ)
    (wf : ℕ → ℕ → ℂ) : Prop :=
  ∀ i < n, ∀ j < m,
    nonlineardealiased n m kx ky k2 wf i j = nonlinearNoPadRef n m kx ky k2 wf i j

/-- Spectral coarsening `coarsen(nx,ny,nxc,nyc,uf)` (lines 348-373): copy
the four corner blocks of the fine field and rescale by
`(nxc*nyc)/(nx*ny)`.  The high-block index arithmetic `nx - nxc + i`
matches the source's slice pairing `ufc[nxc/2:] = uf[nx-nxc/2:]` for even
`nxc` (for odd `nxc` the numpy slice lengths disagree and the source
raises). -/
def coarsen (nx ny nxc nyc : ℕ) (uf : ℕ → ℕ → ℂ) : ℕ → ℕ → ℂ := fun i j =>
  uf (if i < nxc / 2 then i else nx - nxc + i)
     (if j < nyc / 2 then j else ny - nyc + j) *
    ((nxc * nyc : ℕ) : ℂ) / ((nx * ny : ℕ) : ℂ)

/-- Periodic boundary fill `pbc(nx,ny,u)` (lines 124-141), modelled as the
final state of the mutated `(nx+1) × (ny+1)` array: last column = first
column, last row = first row (whose last entry is already `u[0,0]`),
corner = `u[0,0]`. -/
def pbc (nx ny : ℕ) (u : ℕ → ℕ → ℝ) : ℕ → ℕ → ℝ := fun i j =>
  if i = nx then (if j = ny then u 0 0 else u 0 j)
  else (if j = ny then u i 0 else u i j)

/-- Spectral Poisson solver `fps(nx,ny,dx,dy,k2,f)` (lines 313-344):
interior `u[0:nx,0:ny] = np.real(ifft(f/(-k2)))` on a zero-initialised
`(nx+1) × (ny+1)` array, then the periodic boundary fill `pbc`. -/
def fps (nx ny : ℕ) (dx dy : ℝ) (k2 : ℕ → ℕ → ℝ) (f : ℕ → ℕ → ℂ) :
    ℕ → ℕ → ℝ :=
  pbc nx ny fun i j =>
    if i < nx ∧ j < ny then
      (ifft2 nx ny (fun a b => f a b / ((-(k2 a b) : ℝ) : ℂ)) i j).re
    else 0

/-- Stage constant `a1 = 8.0/15.0` (line 708). -/
def a1 : ℝ := 8 / 15

/-- Stage constant `a2 = 2.0/15.0` (line 708). -/
def a2 : ℝ := 2 / 15

/-- Stage constant `a3 = 1.0/3.0` (line 708). -/
def a3 : ℝ := 1 / 3

/-- Stage constant `g1 = 8.0/15.0` (line 709). -/
def g1 : ℝ := 8 / 15

/-- Stage constant `g2 = 5.0/12.0` (line 709). -/
def g2 : ℝ := 5 / 12

/-- Stage constant `g3 = 3.0/4.0` (line 709). -/
def g3 : ℝ := 3 / 4

/-- Stage constant `r2 = -17.0/60.0` (line 710). -/
def r2 : ℝ := -17 / 60

/-- Stage constant `r3 = -5.0/12.0` (line 710). -/
def r3 : ℝ := -5 / 12

/-- Per-mode implicit factor `z = 0.5*dt*k2/re` (line 715). -/
def z (dt re : ℝ) (k2 : ℕ → ℕ → ℝ) (i j : ℕ) : ℝ := 1 / 2 * dt * k2 i j / re

/-- Implicit stage factor `d1 = a1*z` (line 716). -/
def d1 (dt re : ℝ) (k2 : ℕ → ℕ → ℝ) (i j : ℕ) : ℝ := a1 * z dt re k2 i j

/-- Implicit stage factor `d2 = a2*z` (line 717). -/
def d2 (dt re : ℝ) (k2 : ℕ → ℕ → ℝ) (i j : ℕ) : ℝ := a2 * z dt re k2 i j

/-- Implicit stage factor `d3 = a3*z` (line 718). -/
def d3 (dt re : ℝ) (k2 : ℕ → ℕ → ℝ) (i j : ℕ) : ℝ := a3 * z dt re k2 i j

/-- Forcing of the `(0,0)` frequency mode to exactly zero
(`w1f[0,0] = 0.0` etc., lines 732, 737, 742), modelled as the final state
of the mutated array. -/
def forceZeroMode (w : ℕ → ℕ → ℂ) : ℕ → ℕ → ℂ := fun i j =>
  if i = 0 ∧ j = 0 then 0 else w i j

/-- First Runge-Kutta/Crank-Nicolson stage (lines 730-732):
`w1f = ((1-d1)/(1+d1))*wnf + (g1*dt*jnf)/(1+d1)` followed by
`w1f[0,0] = 0.0`. -/
def stage1 (dt re : ℝ) (k2 : ℕ → ℕ → ℝ) (wnf jnf : ℕ → ℕ → ℂ) :
    ℕ → ℕ → ℂ :=
  forceZeroMode fun i j =>
    (((1 - d1 dt re k2 i j) / (1 + d1 dt re k2 i j) : ℝ) : ℂ) * wnf i j +
      ((g1 * dt : ℝ) : ℂ) * jnf i j / ((1 + d1 dt re k2 i j : ℝ) : ℂ)

/-- Second Runge-Kutta/Crank-Nicolson stage (lines 735-737):
`w2f = ((1-d2)/(1+d2))*w1f + (r2*dt*jnf + g2*dt*j1f)/(1+d2)` followed by
`w2f[0,0] = 0.0`. -/
def stage2 (dt re : ℝ) (k2 : ℕ → ℕ → ℝ) (w1f jnf j1f : ℕ → ℕ → ℂ) :
    ℕ → ℕ → ℂ :=
  forceZeroMode fun i j =>
    (((1 - d2 dt re k2 i j) / (1 + d2 dt re k2 i j) : ℝ) : ℂ) * w1f i j +
      (((r2 * dt : ℝ) : ℂ) * jnf i j + ((g2 * dt : ℝ) : ℂ) * j1f i j) /
        ((1 + d2 dt re k2 i j : ℝ) : ℂ)

/-- Third Runge-Kutta/Crank-Nicolson stage (lines 740-742):
`wnf = ((1-d3)/(1+d3))*w2f + (r3*dt*j1f + g3*dt*j2f)/(1+d3)` followed by
`wnf[0,0] = 0.0`. -/
def stage3 (dt re : ℝ) (k2 : ℕ → ℕ → ℝ) (w2f j1f j2f : ℕ → ℕ → ℂ) :
    ℕ → ℕ → ℂ :=
  forceZeroMode fun i j =>
    (((1 - d3 dt re k2 i j) / (1 + d3 dt re k2 i j) : ℝ) : ℂ) * w2f i j +
      (((r3 * dt : ℝ) : ℂ) * j1f i j + ((g3 * dt : ℝ) : ℂ) * j2f i j) /
        ((1 + d3 dt re k2 i j : ℝ) : ℂ)

/-- One pass of the time-integration loop (lines 727-742): the three
stages, each preceded by a dealiased Jacobian evaluation of the most
recent field. -/
def rk3Step (n m : ℕ) (dt re : ℝ) (kx ky : ℕ → ℝ) (k2 : ℕ → ℕ → ℝ)
    (wnf : ℕ → ℕ → ℂ) : ℕ → ℕ → ℂ :=
  let jnf := nonlineardealiased n m kx ky k2 wnf
  let w1f := stage1 dt re k2 wnf jnf
  let j1f := nonlineardealiased n m kx ky k2 w1f
  let w2f := stage2 dt re k2 w1f jnf j1f
  let j2f := nonlineardealiased n m kx ky k2 w2f
  stage3 dt re k2 w2f j1f j2f

/-- Concrete physical field used in counterexamples: a unit impulse at
grid point `(0,0)`. -/
def deltaW : ℕ → ℕ → ℝ := fun i j => if i = 0 ∧ j = 0 then 1 else 0

/-! ### Helper lemmas -/

/-- Applying `coarsen` with coincident source and target resolutions is
the identity on the stored entries. -/
theorem coarsen_self (Nc : ℕ) (Y : ℕ → ℕ → ℂ) (i j : ℕ)
    (hi : i < Nc) (hj : j < Nc) : coarsen Nc Nc Nc Nc Y i j = Y i j := by
  have hpos : Nc * Nc ≠ 0 := Nat.mul_ne_zero (by omega) (by omega)
  have hc : ((Nc * Nc : ℕ) : ℂ) ≠ 0 := Nat.cast_ne_zero.mpr hpos
  simp only [coarsen]
  have e1 : (if i < Nc / 2 then i else Nc - Nc + i) = i := by split <;> omega
  have e2 : (if j < Nc / 2 then j else Nc - Nc + j) = j := by split <;> omega
  rw [e1, e2, mul_div_cancel_right₀ _ hc]

/-- The inverse transform maps a pointwise-negated field to the pointwise
negation in physical space. -/
theorem physOf_neg (n m : ℕ) (F G : ℕ → ℕ → ℂ)
    (h : ∀ a b, F a b = -G a b) (x y : ℕ) :
    physOf n m F x y = -physOf n m G x y := by
  simp only [physOf, ifft2]
  have hsum : (∑ k ∈ range n, ∑ l ∈ range m, F k l * idftKer n k x * idftKer m l y)
      = -(∑ k ∈ range n, ∑ l ∈ range m, G k l * idftKer n k x * idftKer m l y) := by
    rw [← Finset.sum_neg_distrib]
    refine Finset.sum_congr rfl fun k _ => ?_
    rw [← Finset.sum_neg_distrib]
    refine Finset.sum_congr rfl fun l _ => ?_
    rw [h k l]; ring
  rw [hsum, neg_div, Complex.neg_re]

/-- The forward transform maps a pointwise-negated field to the pointwise
negation. -/
theorem fft2_neg (n m : ℕ) (F G : ℕ → ℕ → ℂ)
    (h : ∀ a b, F a b = -G a b) (x y : ℕ) :
    fft2 n m F x y = -fft2 n m G x y := by
  simp only [fft2]
  rw [← Finset.sum_neg_distrib]
  refine Finset.sum_congr rfl fun k _ => ?_
  rw [← Finset.sum_neg_distrib]
  refine Finset.sum_congr rfl fun l _ => ?_
  rw [h k l]; ring

/-- Equation form of `forceZeroMode` usable under partial application. -/
theorem forceZeroMode_eq (w : ℕ → ℕ → ℂ) :
    forceZeroMode w = fun i j => if i = 0 ∧ j = 0 then 0 else w i j := rfl

/-- Equation form of `stage1` usable under partial application. -/
theorem stage1_eq (dt re : ℝ) (k2 : ℕ → ℕ → ℝ) (wnf jnf : ℕ → ℕ → ℂ) :
    stage1 dt re k2 wnf jnf = fun i j =>
      if i = 0 ∧ j = 0 then 0 else
        (((1 - d1 dt re k2 i j) / (1 + d1 dt re k2 i j) : ℝ) : ℂ) * wnf i j +
          ((g1 * dt : ℝ) : ℂ) * jnf i j / ((1 + d1 dt re k2 i j : ℝ) : ℂ) := rfl

/-- Equation form of `stage2` usable under partial application. -/
theorem stage2_eq (dt re : ℝ) (k2 : ℕ → ℕ → ℝ) (w1f jnf j1f : ℕ → ℕ → ℂ) :
    stage2 dt re k2 w1f jnf j1f = fun i j =>
      if i = 0 ∧ j = 0 then 0 else
        (((1 - d2 dt re k2 i j) / (1 + d2 dt re k2 i j) : ℝ) : ℂ) * w1f i j +
          (((r2 * dt : ℝ) : ℂ) * jnf i j + ((g2 * dt : ℝ) : ℂ) * j1f i j) /
            ((1 + d2 dt re k2 i j : ℝ) : ℂ) := rfl

/-- Equation form of `stage3` usable under partial application. -/
theorem stage3_eq (dt re : ℝ) (k2 : ℕ → ℕ → ℝ) (w2f j1f j2f : ℕ → ℕ → ℂ) :
    stage3 dt re k2 w2f j1f j2f = fun i j =>
      if i = 0 ∧ j = 0 then 0 else
        (((1 - d3 dt re k2 i j) / (1 + d3 dt re k2 i j) : ℝ) : ℂ) * w2f i j +
          (((r3 * dt : ℝ) : ℂ) * j1f i j + ((g3 * dt : ℝ) : ℂ) * j2f i j) /
            ((1 + d3 dt re k2 i j : ℝ) : ℂ) := rfl

/-- The dealiased evaluator maps the zero field to the zero field. -/
theorem nonlineardealiased_zero (n m : ℕ) (kx ky : ℕ → ℝ)
    (k2 : ℕ → ℕ → ℝ) (i j : ℕ) :
    nonlineardealiased n m kx ky k2 (fun _ _ => 0) i j = 0 := by
  have h1 : ∀ x y, padScaled n m (jd1f kx k2 fun _ _ => 0) x y = 0 := by
    intro x y; simp [padScaled, pad2, jd1f]
  have h2 : ∀ x y, padScaled n m (jd2f ky fun _ _ => 0) x y = 0 := by
    intro x y; simp [padScaled, pad2, jd2f]
  have h3 : ∀ x y, padScaled n m (jd3f ky k2 fun _ _ => 0) x y = 0 := by
    intro x y; simp [padScaled, pad2, jd3f]
  have h4 : ∀ x y, padScaled n m (jd4f kx fun _ _ => 0) x y = 0 := by
    intro x y; simp [padScaled, pad2, jd4f]
  simp [nonlineardealiased, unpad2, fft2, physOf, ifft2, h1, h2, h3, h4]

/-- The spec-side native-resolution evaluator maps the zero field to the
zero field. -/
theorem nonlinearNoPadRef_zero (n m : ℕ) (kx ky : ℕ → ℝ)
    (k2 : ℕ → ℕ → ℝ) (i j : ℕ) :
    nonlinearNoPadRef n m kx ky k2 (fun _ _ => 0) i j = 0 := by
  simp [nonlinearNoPadRef, fft2, physOf, ifft2, jd1f, jd2f, jd3f, jd4f]

/-- A nonzero in-range index has a nonzero periodic wavenumber. -/
theorem kfreq_ne_zero (n i : ℕ) (hi : 0 < i) (hin : i < n) :
    kfreq n i ≠ 0 := by
  unfold kfreq
  split
  · exact Nat.cast_ne_zero.mpr hi.ne'
  · have hlt : (i : ℝ) < (n : ℝ) := by exact_mod_cast hin
    exact sub_ne_zero.mpr hlt.ne

/-- At the solver's own grid spacing `dx = 2*pi/n` the `energy_spectrum`
wavenumber scale factor is one, so `kx[i]` is the integer wavenumber for
`i` nonzero and the regulariser `1.0e-6` at `i = 0`. -/
theorem kxES_at (n : ℕ) (hn : 0 < n) (i : ℕ) :
    kxES n (2 * Real.pi / n) i = if i = 0 then 1 / 10 ^ 6 else kfreq n i := by
  unfold kxES
  split
  · rfl
  · have hnz : (n : ℝ) ≠ 0 := Nat.cast_ne_zero.mpr hn.ne'
    have hsc : 2 * Real.pi / ((n : ℝ) * (2 * Real.pi / n)) = 1 := by
      rw [mul_div_cancel₀ _ hnz]
      exact div_self (by positivity)
    rw [hsc, one_mul]

/-- For an in-range index with `2*a ≤ n` the periodic wavenumber squares
to `a^2` (the index `a = n/2` maps to `-n/2`, whose square is the same). -/
theorem kfreq_sq (n a : ℕ) (h2 : 2 * a ≤ n) :
    kfreq n a ^ 2 = ((a : ℕ) : ℝ) ^ 2 := by
  unfold kfreq
  split
  · rfl
  · have hn : n = 2 * a := by omega
    subst hn
    push_cast
    ring

/-- Every radial annulus `(k-1/2, k+1/2)` with `(k+1)^2 ≤ 2*h^2 + 2*h`
(which holds for `k ≤ kmax` on a grid of either parity with
`h = ⌊N/2⌋`) contains a lattice point `(a,b)` with `1 ≤ a,b ≤ h`: for
`k ≤ h` the point `(k,1)`, and for `h < k` the point
`(h, Nat.sqrt(k^2-k-h^2)+1)`. -/
theorem shell_lattice_point (h k : ℕ) (hk : 1 ≤ k)
    (hbound : (k + 1) * (k + 1) ≤ 2 * (h * h) + 2 * h) :
    ∃ a b : ℕ, 1 ≤ a ∧ a ≤ h ∧ 1 ≤ b ∧ b ≤ h ∧
      k * k + 1 ≤ a * a + b * b + k ∧ a * a + b * b ≤ k * k + k := by
  have hh1 : 1 ≤ h := by nlinarith
  by_cases hkh : k ≤ h
  · exact ⟨k, 1, hk, hkh, le_refl 1, by omega, by nlinarith, by nlinarith⟩
  · push_neg at hkh
    have htle : k + h * h ≤ k * k := by nlinarith
    have hs1 := Nat.sqrt_le (k * k - (k + h * h))
    have hs2 := Nat.lt_succ_sqrt (k * k - (k + h * h))
    set s := Nat.sqrt (k * k - (k + h * h)) with hs
    have htZ : ((k * k - (k + h * h) : ℕ) : ℤ) = (k : ℤ) * k - k - h * h := by
      rw [Nat.cast_sub htle]; push_cast; ring
    have hs1Z : (s : ℤ) * s ≤ (k : ℤ) * k - k - h * h := by
      calc ((s : ℤ) * s) = ((s * s : ℕ) : ℤ) := by push_cast; ring
        _ ≤ ((k * k - (k + h * h) : ℕ) : ℤ) := by exact_mod_cast hs1
        _ = _ := htZ
    have hs2Z : (k : ℤ) * k - k - h * h < ((s : ℤ) + 1) * ((s : ℤ) + 1) := by
      calc (k : ℤ) * k - k - h * h = ((k * k - (k + h * h) : ℕ) : ℤ) := htZ.symm
        _ < ((Nat.succ s * Nat.succ s : ℕ) : ℤ) := by exact_mod_cast hs2
        _ = ((s : ℤ) + 1) * ((s : ℤ) + 1) := by push_cast; ring
    have hkhZ : (h : ℤ) < k := by exact_mod_cast hkh
    have hbZ : ((k : ℤ) + 1) * (k + 1) ≤ 2 * (h * h) + 2 * h := by
      exact_mod_cast hbound
    have hh1Z : (1 : ℤ) ≤ h := by exact_mod_cast hh1
    have hkZ : (1 : ℤ) ≤ k := by exact_mod_cast hk
    have hsh : (s : ℤ) < h := by
      nlinarith [Int.natCast_nonneg s, Int.natCast_nonneg h]
    have hsk : (s : ℤ) ≤ k - 1 := by
      nlinarith [Int.natCast_nonneg s, Int.natCast_nonneg h]
    have hshN : s < h := by exact_mod_cast hsh
    refine ⟨h, s + 1, by omega, le_refl h, by omega, by omega, ?_, ?_⟩
    · zify
      nlinarith [hs2Z]
    · zify
      nlinarith [hs1Z, hsk]

/-- C7: the radial spectrum binning never divides by zero: for every grid
size `N` (of either parity) and every shell index `k` in `1..kmax`, the
shell's mode count is strictly positive (the code has no guarded fallback
branch, so the claim's disjunction holds through its first disjunct). -/
theorem C7_no_empty_shell (n k : ℕ) (hk1 : 1 ≤ k)
    (hk2 : k ≤ nShells n) :
    0 < (shellSet n (2 * Real.pi / n) k).card := by
  unfold nShells at hk2
  have hS := Nat.sqrt_le (n * n + n * n)
  set S := Nat.sqrt (n * n + n * n) with hSdef
  have h2k : 2 * (k + 1) ≤ S := by omega
  have hq : 2 * (k + 1) * (2 * (k + 1)) ≤ n * n + n * n :=
    le_trans (Nat.mul_le_mul h2k h2k) hS
  have hn2 : n ≤ 2 * (n / 2) + 1 := by omega
  have hb : (k + 1) * (k + 1) ≤ 2 * ((n / 2) * (n / 2)) + 2 * (n / 2) := by
    by_contra hcon
    push_neg at hcon
    nlinarith [hq, Nat.mul_le_mul hn2 hn2]
  obtain ⟨a, b, ha1, hah, hb1, hbh, hlo, hhi⟩ :=
    shell_lattice_point (n / 2) k hk1 hb
  have hn0 : 0 < n := by omega
  have hka : kxES n (2 * Real.pi / n) a = kfreq n a := by
    rw [kxES_at n hn0 a, if_neg (by omega)]
  have hkb : kxES n (2 * Real.pi / n) b = kfreq n b := by
    rw [kxES_at n hn0 b, if_neg (by omega)]
  have hkk : kkES n (2 * Real.pi / n) a b =
      Real.sqrt (((a : ℕ) : ℝ) ^ 2 + ((b : ℕ) : ℝ) ^ 2) := by
    rw [kkES, hka, hkb, kfreq_sq n a (by omega), kfreq_sq n b (by omega)]
  have hloR : ((k : ℕ) : ℝ) * k + 1 ≤ (a : ℝ) * a + (b : ℝ) * b + k := by
    exact_mod_cast hlo
  have hhiR : ((a : ℕ) : ℝ) * a + (b : ℝ) * b ≤ (k : ℝ) * k + k := by
    exact_mod_cast hhi
  have hk1R : (1 : ℝ) ≤ (k : ℝ) := by exact_mod_cast hk1
  apply Finset.card_pos.mpr
  refine ⟨(a, b), Finset.mem_filter.mpr ⟨Finset.mem_product.mpr ⟨?_, ?_⟩, ?_, ?_⟩⟩
  · exact Finset.mem_Ico.mpr ⟨ha1, by omega⟩
  · exact Finset.mem_Ico.mpr ⟨hb1, by omega⟩
  · show (k : ℝ) - 1 / 2 < kkES n (2 * Real.pi / n) a b
    rw [hkk]
    refine (Real.lt_sqrt (by linarith)).mpr ?_
    nlinarith
  · show kkES n (2 * Real.pi / n) a b < (k : ℝ) + 1 / 2
    rw [hkk]
    refine (Real.sqrt_lt' (by linarith)).mpr ?_
    nlinarith

/-- C7 witness at the odd grid size `N = 5`, shell `k = 1`. -/
theorem C7_no_empty_shell_witness :
    1 ≤ nShells 5 ∧
      0 < (shellSet 5 (2 * Real.pi / ((5 : ℕ) : ℝ)) 1).card :=
  ⟨by norm_num [nShells],
    C7_no_empty_shell 5 1 (by decide) (by norm_num [nShells])⟩

/-- The forward transform of the unit impulse at `(0,0)` on the `4 × 4`
grid is identically one. -/
theorem fft2_delta (k l : ℕ) :
    fft2 4 4 (fun a b => ((deltaW a b : ℝ) : ℂ)) k l = 1 := by
  simp [fft2, deltaW, Finset.sum_range_succ, dftKer]

/-- A magnitude `sqrt c` with `1/4 < c < 9/4` lies in the first radial
shell's band `(1 - 1/2, 1 + 1/2)`. -/
theorem band1_in (c : ℝ) (h1 : 1 / 4 < c) (h2 : c < 9 / 4) :
    (1 : ℝ) - 1 / 2 < Real.sqrt c ∧ Real.sqrt c < (1 : ℝ) + 1 / 2 :=
  ⟨(Real.lt_sqrt (by norm_num)).mpr (by nlinarith),
    (Real.sqrt_lt' (by norm_num)).mpr (by nlinarith)⟩

/-- A magnitude `sqrt c` with `9/4 ≤ c` lies above the first shell's
band. -/
theorem band1_out_high (c : ℝ) (h2 : 9 / 4 ≤ c) :
    ¬((1 : ℝ) - 1 / 2 < Real.sqrt c ∧ Real.sqrt c < (1 : ℝ) + 1 / 2) := by
  rintro ⟨-, h⟩
  have := (Real.sqrt_lt' (by norm_num : (0 : ℝ) < 1 + 1 / 2)).mp h
  nlinarith

/-- A magnitude `sqrt c` with `c < 1/4` lies below the first shell's
band. -/
theorem band1_out_low (c : ℝ) (h1 : c < 1 / 4) :
    ¬((1 : ℝ) - 1 / 2 < Real.sqrt c ∧ Real.sqrt c < (1 : ℝ) + 1 / 2) := by
  rintro ⟨h, -⟩
  have := (Real.lt_sqrt (by norm_num : (0 : ℝ) ≤ 1 - 1 / 2)).mp h
  nlinarith

/-! ### Claims -/

/-- C1: one pass of the time-integration loop is exactly the three-stage
IMEX update of the spec, with `z = (1/2)*dt*k2/re`, stage weights
`(8/15, 2/15, 1/3)`, `(8/15, 5/12, 3/4)`, `(-17/60, -5/12)`, `J` the
dealiased evaluator, and mode `(0,0)` forced to zero after every stage. -/
theorem C1_imex_step (n : ℕ) (hn : Even n) (dt re : ℝ) (wnf : ℕ → ℕ → ℂ) :
    rk3Step n n dt re (kfreq n) (kfreq n) (k2F n n) wnf =
      (let J := nonlineardealiased n n (kfreq n) (kfreq n) (k2F n n)
       let zc : ℕ → ℕ → ℝ := fun i j => 1 / 2 * dt * k2F n n i j / re
       let dd1 : ℕ → ℕ → ℝ := fun i j => 8 / 15 * zc i j
       let dd2 : ℕ → ℕ → ℝ := fun i j => 2 / 15 * zc i j
       let dd3 : ℕ → ℕ → ℝ := fun i j => 1 / 3 * zc i j
       let w1 : ℕ → ℕ → ℂ := fun i j =>
         if i = 0 ∧ j = 0 then 0 else
           (((1 - dd1 i j) / (1 + dd1 i j) : ℝ) : ℂ) * wnf i j +
             ((8 / 15 * dt : ℝ) : ℂ) * J wnf i j / ((1 + dd1 i j : ℝ) : ℂ)
       let w2 : ℕ → ℕ → ℂ := fun i j =>
         if i = 0 ∧ j = 0 then 0 else
           (((1 - dd2 i j) / (1 + dd2 i j) : ℝ) : ℂ) * w1 i j +
             (((-17 / 60 * dt : ℝ) : ℂ) * J wnf i j +
              ((5 / 12 * dt : ℝ) : ℂ) * J w1 i j) / ((1 + dd2 i j : ℝ) : ℂ)
       fun i j =>
         if i = 0 ∧ j = 0 then 0 else
           (((1 - dd3 i j) / (1 + dd3 i j) : ℝ) : ℂ) * w2 i j +
             (((-5 / 12 * dt : ℝ) : ℂ) * J w1 i j +
              ((3 / 4 * dt : ℝ) : ℂ) * J w2 i j) / ((1 + dd3 i j : ℝ) : ℂ)) := by
  funext i j
  simp only [rk3Step, stage1_eq, stage2_eq, stage3_eq,
    d1, d2, d3, z, a1, a2, a3, g1, g2, g3, r2, r3]

/-- C1 witness at `N = 2`, `dt = re = 1`, zero starting field. -/
theorem C1_imex_step_witness :
    Even 2 ∧
      (rk3Step 2 2 1 1 (kfreq 2) (kfreq 2) (k2F 2 2) (fun _ _ => 0)) 0 0 = 0 := by
  refine ⟨by decide, ?_⟩
  rw [C1_imex_step 2 (by decide) 1 1 (fun _ _ => 0)]
  simp

/-- C2: the `(0,0)` frequency component of the evolving vorticity field is
exactly zero after each of the three stages and after every complete time
step, for every starting field and every number of steps. -/
theorem C2_zero_mode_invariant (n : ℕ) (dt re : ℝ) (w0 : ℕ → ℕ → ℂ) :
    (∀ wf jnf : ℕ → ℕ → ℂ, stage1 dt re (k2F n n) wf jnf 0 0 = 0) ∧
    (∀ w1f jnf j1f : ℕ → ℕ → ℂ, stage2 dt re (k2F n n) w1f jnf j1f 0 0 = 0) ∧
    (∀ w2f j1f j2f : ℕ → ℕ → ℂ, stage3 dt re (k2F n n) w2f j1f j2f 0 0 = 0) ∧
    (∀ steps, 1 ≤ steps →
      ((rk3Step n n dt re (kfreq n) (kfreq n) (k2F n n))^[steps] w0) 0 0 = 0) := by
  refine ⟨?_, ?_, ?_, ?_⟩
  · intro wf jnf; simp [stage1, forceZeroMode]
  · intro w1f jnf j1f; simp [stage2, forceZeroMode]
  · intro w2f j1f j2f; simp [stage3, forceZeroMode]
  · intro steps hsteps
    obtain ⟨s, rfl⟩ : ∃ s, steps = s + 1 := ⟨steps - 1, by omega⟩
    rw [Function.iterate_succ_apply']
    simp [rk3Step, stage3, forceZeroMode]

/-- C2 witness: one step at `N = 2` from the zero field. -/
theorem C2_zero_mode_invariant_witness :
    1 ≤ 1 ∧
      ((rk3Step 2 2 1 1 (kfreq 2) (kfreq 2) (k2F 2 2))^[1] (fun _ _ => 0)) 0 0 = 0 :=
  ⟨le_refl 1, (C2_zero_mode_invariant 2 1 1 (fun _ _ => 0)).2.2.2 1 (le_refl 1)⟩

/-- C4: `fps` returns the field whose interior is the real part of the
inverse FFT of `f/(-k2)` and whose boundary is the periodic wrap: last
row equals first row, last column equals first column, and the corner
equals the origin value. -/
theorem C4_fps_poisson (n m : ℕ) (dx dy : ℝ) (k2 : ℕ → ℕ → ℝ)
    (f : ℕ → ℕ → ℂ) (hn : 0 < n) (hm : 0 < m) :
    (∀ i < n, ∀ j < m,
        fps n m dx dy k2 f i j =
          (ifft2 n m (fun a b => f a b / ((-(k2 a b) : ℝ) : ℂ)) i j).re) ∧
    (∀ j ≤ m, fps n m dx dy k2 f n j = fps n m dx dy k2 f 0 j) ∧
    (∀ i ≤ n, fps n m dx dy k2 f i m = fps n m dx dy k2 f i 0) ∧
    fps n m dx dy k2 f n m = fps n m dx dy k2 f 0 0 := by
  refine ⟨?_, ?_, ?_, ?_⟩
  · intro i hi j hj
    simp only [fps, pbc]
    rw [if_neg (by omega), if_neg (by omega), if_pos ⟨hi, hj⟩]
  · intro j hj
    simp only [fps, pbc]
    split_ifs <;> first | rfl | omega
  · intro i hi
    simp only [fps, pbc]
    split_ifs <;> first | rfl | omega
  · simp only [fps, pbc]
    split_ifs <;> first | rfl | omega

/-- C4 witness at `n = m = 2`, `k2 = 1`, `f = 0`: the corner equals the
origin value. -/
theorem C4_fps_poisson_witness :
    (0 : ℕ) < 2 ∧
      fps 2 2 1 1 (fun _ _ => 1) (fun _ _ => 0) 2 2 =
        fps 2 2 1 1 (fun _ _ => 1) (fun _ _ => 0) 0 0 :=
  ⟨by norm_num,
    (C4_fps_poisson 2 2 1 1 (fun _ _ => 1) (fun _ _ => 0)
      (by norm_num) (by norm_num)).2.2.2⟩

/-- C5: coarsening is idempotent; applying `coarsen` a second time at the
same target resolution changes nothing. -/
theorem C5_coarsen_idempotent (N Nc : ℕ) (uf : ℕ → ℕ → ℂ)
    (hev : Even Nc) (hlt : Nc < N) (hhalf : Nc / 2 ≤ N - Nc / 2) :
    ∀ i < Nc, ∀ j < Nc,
      coarsen Nc Nc Nc Nc (coarsen N N Nc Nc uf) i j =
        coarsen N N Nc Nc uf i j := by
  intro i hi j hj
  exact coarsen_self Nc (coarsen N N Nc Nc uf) i j hi hj

/-- C5 witness at `N = 4`, `Nc = 2`. -/
theorem C5_coarsen_idempotent_witness :
    Even 2 ∧ 2 < 4 ∧ 2 / 2 ≤ 4 - 2 / 2 ∧ (1 : ℕ) < 2 ∧
      coarsen 2 2 2 2 (coarsen 4 4 2 2 fun i j => (i : ℂ) + j) 1 1 =
        coarsen 4 4 2 2 (fun i j => (i : ℂ) + j) 1 1 :=
  ⟨by decide, by decide, by decide, by decide,
    C5_coarsen_idempotent 4 2 (fun i j => (i : ℂ) + j) (by decide) (by decide)
      (by decide) 1 (by decide) 1 (by decide)⟩

/-- C9: the dealiased nonlinear evaluator maps the all-zero field to the
all-zero Jacobian, for every even `N` and strictly positive `k2`. -/
theorem C9_dealiased_zero_field (n : ℕ) (hn : Even n) (kx ky : ℕ → ℝ)
    (k2 : ℕ → ℕ → ℝ) (hk2 : ∀ i j, 0 < k2 i j) :
    ∀ i < n, ∀ j < n,
      nonlineardealiased n n kx ky k2 (fun _ _ => 0) i j = 0 := by
  intro i _ j _
  exact nonlineardealiased_zero n n kx ky k2 i j

/-- C9 witness at `N = 2`, `k2 = 1`. -/
theorem C9_dealiased_zero_field_witness :
    Even 2 ∧ (0 : ℝ) < 1 ∧
      nonlineardealiased 2 2 (fun _ => 0) (fun _ => 0) (fun _ _ => 1)
        (fun _ _ => 0) 0 0 = 0 :=
  ⟨by decide, one_pos,
    C9_dealiased_zero_field 2 (by decide) (fun _ => 0) (fun _ => 0)
      (fun _ _ => 1) (fun _ _ => one_pos) 0 (by decide) 0 (by decide)⟩

/-- C10: the coarsening operator depends only on the four corner blocks of
the fine field; two fine fields agreeing there coarsen identically. -/
theorem C10_coarsen_corner_dependence (N Nc : ℕ) (uf vf : ℕ → ℕ → ℂ)
    (hev : Even Nc) (hle : Nc ≤ N)
    (hagree : ∀ i j : ℕ,
      (i < Nc / 2 ∨ (N - Nc / 2 ≤ i ∧ i < N)) →
      (j < Nc / 2 ∨ (N - Nc / 2 ≤ j ∧ j < N)) → uf i j = vf i j) :
    ∀ i < Nc, ∀ j < Nc,
      coarsen N N Nc Nc uf i j = coarsen N N Nc Nc vf i j := by
  obtain ⟨c, hc⟩ := hev
  have key : ∀ t, t < Nc →
      ((if t < Nc / 2 then t else N - Nc + t) < Nc / 2 ∨
        (N - Nc / 2 ≤ (if t < Nc / 2 then t else N - Nc + t) ∧
          (if t < Nc / 2 then t else N - Nc + t) < N)) := by
    intro t ht
    split
    · left; assumption
    · right; omega
  intro i hi j hj
  simp only [coarsen]
  rw [hagree _ _ (key i hi) (key j hj)]

/-- C10 witness at `N = 4`, `Nc = 2`, with `vf` differing from `uf` only
in the middle wavenumber band. -/
theorem C10_coarsen_corner_dependence_witness :
    Even 2 ∧ 2 ≤ 4 ∧
      coarsen 4 4 2 2 (fun _ _ => (0 : ℂ)) 1 1 =
        coarsen 4 4 2 2 (fun i _ => if i = 1 then (5 : ℂ) else 0) 1 1 := by
  refine ⟨by decide, by decide, ?_⟩
  refine C10_coarsen_corner_dependence 4 2 _ _ (by decide) (by decide)
    ?_ 1 (by decide) 1 (by decide)
  intro i j hij _
  have : i ≠ 1 := by omega
  simp [this]

/-- C3 counterexample: the non-dealiased evaluator does NOT form the
auxiliary field `j1f = -i*kx*wf/k2` of the dealiased construction; at
`kx = k2 = wf = 1` line 495 produces `i` while the claimed construction
(line 395) produces `-i`. -/
theorem C3_counterexample :
    jn1f (fun _ => 1) (fun _ _ => 1) (fun _ _ => 1) 0 0 ≠
      jd1f (fun _ => 1) (fun _ _ => 1) (fun _ _ => 1) 0 0 := by
  simp only [jn1f, jd1f]
  norm_num [Complex.ext_iff]

/-- C3 amended: the non-dealiased evaluator uses the opposite sign on the
two `k2`-divided auxiliary fields (`+1.0j*kx*wf/k2`, `+1.0j*ky*wf/k2`),
so on every alias-free input it returns the NEGATION of the dealiased
Jacobian rather than the same Jacobian. -/
theorem C3_amended (n m : ℕ) (kx ky : ℕ → ℝ) (k2 : ℕ → ℕ → ℝ)
    (wf : ℕ → ℕ → ℂ) (hfree : aliasFreeInput n m kx ky k2 wf) :
    ∀ i < n, ∀ j < m,
      nonlinear n m kx ky k2 wf i j = -nonlineardealiased n m kx ky k2 wf i j := by
  have p1 : ∀ x y, physOf n m (jn1f kx k2 wf) x y =
      -physOf n m (jd1f kx k2 wf) x y :=
    physOf_neg n m _ _ fun a b => by simp only [jn1f, jd1f]; ring
  have p3 : ∀ x y, physOf n m (jn3f ky k2 wf) x y =
      -physOf n m (jd3f ky k2 wf) x y :=
    physOf_neg n m _ _ fun a b => by simp only [jn3f, jd3f]; ring
  have hneg : ∀ i j, nonlinear n m kx ky k2 wf i j =
      -nonlinearNoPadRef n m kx ky k2 wf i j := by
    intro i j
    simp only [nonlinear, nonlinearNoPadRef]
    exact fft2_neg n m _ _ (fun a b => by
      rw [p1 a b, p3 a b]; push_cast; ring) i j
  intro i hi j hj
  rw [hneg i j, hfree i hi j hj]

/-- C3 amended witness: the zero field is alias-free, and there the two
evaluators are negatives of each other (both zero). -/
theorem C3_amended_witness :
    aliasFreeInput 2 2 (fun _ => 0) (fun _ => 0) (fun _ _ => 1)
        (fun _ _ => 0) ∧
      nonlinear 2 2 (fun _ => 0) (fun _ => 0) (fun _ _ => 1) (fun _ _ => 0) 0 0 =
        -nonlineardealiased 2 2 (fun _ => 0) (fun _ => 0) (fun _ _ => 1)
          (fun _ _ => 0) 0 0 := by
  have hfree : aliasFreeInput 2 2 (fun _ => 0) (fun _ => 0) (fun _ _ => 1)
      (fun _ _ => 0) := by
    intro i _ j _
    rw [nonlineardealiased_zero, nonlinearNoPadRef_zero]
  exact ⟨hfree,
    C3_amended 2 2 (fun _ => 0) (fun _ => 0) (fun _ _ => 1) (fun _ _ => 0)
      hfree 0 (by norm_num) 0 (by norm_num)⟩

/-- C8 counterexample: in the `energy_spectrum` (and `decay_ic`)
wavenumber construction, regularisation is applied to `kx[0]` and `ky[0]`
rather than to the `(0,0)` entry of the squared field alone, so at
`N = 4` (grid spacing `dx = 2*pi/4`) the squared magnitude of entry
`(0,1)` is `1 + 1e-12`, not the exact `kx^2 + ky^2 = 0 + 1`. -/
theorem C8_counterexample :
    kkES 4 (2 * Real.pi / ((4 : ℕ) : ℝ)) 0 1 ^ 2 ≠
      kfreq 4 0 ^ 2 + kfreq 4 1 ^ 2 := by
  have h0 : kxES 4 (2 * Real.pi / ((4 : ℕ) : ℝ)) 0 = 1 / 10 ^ 6 := by
    rw [kxES_at 4 (by norm_num) 0]; rfl
  have h1 : kxES 4 (2 * Real.pi / ((4 : ℕ) : ℝ)) 1 = 1 := by
    rw [kxES_at 4 (by norm_num) 1]
    norm_num [kfreq]
  have hsq : kkES 4 (2 * Real.pi / ((4 : ℕ) : ℝ)) 0 1 ^ 2 =
      (1 / 10 ^ 6 : ℝ) ^ 2 + 1 ^ 2 := by
    rw [kkES, Real.sq_sqrt (by positivity), h0, h1]
  rw [hsq]
  norm_num [kfreq]

/-- C8 amended: the module-level squared-wavenumber constructions (time
integrator and coarse grid) regularise only the `(0,0)` entry, to
`1.0e-12`, leaving every other stored entry exactly `kx^2 + ky^2` and
nonzero; the `decay_ic`/`energy_spectrum` constructions instead
regularise the wavenumbers `kx[0]`, `ky[0]` to `1.0e-6`, so their
magnitude field is strictly positive everywhere and exact off row 0 and
column 0, but deviates from `kx^2 + ky^2` on row 0 and column 0 away
from `(0,0)`. -/
theorem C8_amended (n m : ℕ) (hn : 0 < n) (hm : 0 < m) (i j : ℕ)
    (hi : i < n) (hj : j < m) :
    k2F n m 0 0 = 1 / 10 ^ 12 ∧
    (¬(i = 0 ∧ j = 0) → k2F n m i j = kfreq n i ^ 2 + kfreq m j ^ 2) ∧
    k2F n m i j ≠ 0 ∧
    (j < n → 0 < kkES n (2 * Real.pi / n) i j) ∧
    (1 ≤ i → 1 ≤ j → j < n →
      kkES n (2 * Real.pi / n) i j ^ 2 = kfreq n i ^ 2 + kfreq n j ^ 2) ∧
    (1 ≤ j → j < n →
      kkES n (2 * Real.pi / n) 0 j ^ 2 ≠ 0 ^ 2 + kfreq n j ^ 2) := by
  have hx : ∀ t, t < n → kxES n (2 * Real.pi / n) t ≠ 0 := by
    intro t ht
    rw [kxES_at n hn t]
    split
    · norm_num
    · exact kfreq_ne_zero n t (by omega) ht
  refine ⟨by simp [k2F], ?_, ?_, ?_, ?_, ?_⟩
  · intro h; simp [k2F, h]
  · by_cases h : i = 0 ∧ j = 0
    · simp [k2F, h]
    · rw [k2F]
      rw [if_neg h]
      rcases Decidable.not_and_iff_or_not.mp h with hi0 | hj0
      · have := pow_two_pos_of_ne_zero (kfreq_ne_zero n i (by omega) hi)
        nlinarith [sq_nonneg (kfreq m j)]
      · have := pow_two_pos_of_ne_zero (kfreq_ne_zero m j (by omega) hj)
        nlinarith [sq_nonneg (kfreq n i)]
  · intro hjn
    rw [kkES]
    apply Real.sqrt_pos.mpr
    have := pow_two_pos_of_ne_zero (hx i hi)
    nlinarith [sq_nonneg (kxES n (2 * Real.pi / n) j)]
  · intro hi1 hj1 hjn
    rw [kkES, Real.sq_sqrt (by positivity), kxES_at n hn i, kxES_at n hn j,
      if_neg (by omega), if_neg (by omega)]
  · intro hj1 hjn
    rw [kkES, Real.sq_sqrt (by positivity), kxES_at n hn 0, kxES_at n hn j,
      if_pos rfl, if_neg (by omega)]
    intro h
    have : ((1 : ℝ) / 10 ^ 6) ^ 2 = 0 ^ 2 := by linarith
    norm_num at this

/-- C8 witness at `N = 4`, entry `(1,1)`. -/
theorem C8_amended_witness :
    (0 : ℕ) < 4 ∧ (1 : ℕ) < 4 ∧ k2F 4 4 0 0 = 1 / 10 ^ 12 :=
  ⟨by decide, by decide,
    (C8_amended 4 4 (by decide) (by decide) 1 1 (by decide) (by decide)).1⟩

/-- C6 counterexample: at `N = 4` with the unit-impulse vorticity field,
the code's shell value `en[1]` (which averages only over modes with both
indices at least 1, with density `pi*((|wf|/N^2)^2)/|k|`) differs from
the claim's average of `pi*|wf|^2/(N^2*|k|)` over ALL modes whose
magnitude lies in `(1-1/2, 1+1/2)`: the code excludes the row-0 and
column-0 modes `(0,1), (1,0), (0,3), (3,0)` that the claim includes. -/
theorem C6_counterexample :
    enES 4 (2 * Real.pi / ((4 : ℕ) : ℝ)) deltaW 1 ≠
      (∑ p ∈ (Finset.range 4 ×ˢ Finset.range 4).filter fun p =>
            (1 : ℝ) - 1 / 2 < kkES 4 (2 * Real.pi / ((4 : ℕ) : ℝ)) p.1 p.2 ∧
            kkES 4 (2 * Real.pi / ((4 : ℕ) : ℝ)) p.1 p.2 < (1 : ℝ) + 1 / 2,
          Real.pi *
            Complex.abs (fft2 4 4 (fun a b => ((deltaW a b : ℝ) : ℂ)) p.1 p.2) ^ 2 /
            (((4 : ℝ) * 4) * kkES 4 (2 * Real.pi / ((4 : ℕ) : ℝ)) p.1 p.2)) /
      (((Finset.range 4 ×ˢ Finset.range 4).filter fun p =>
            (1 : ℝ) - 1 / 2 < kkES 4 (2 * Real.pi / ((4 : ℕ) : ℝ)) p.1 p.2 ∧
            kkES 4 (2 * Real.pi / ((4 : ℕ) : ℝ)) p.1 p.2 < (1 : ℝ) + 1 / 2).card : ℝ) := by
  have hx0 : kxES 4 (2 * Real.pi / ((4 : ℕ) : ℝ)) 0 = 1 / 10 ^ 6 := by
    rw [kxES_at 4 (by norm_num) 0]; norm_num
  have hx1 : kxES 4 (2 * Real.pi / ((4 : ℕ) : ℝ)) 1 = 1 := by
    rw [kxES_at 4 (by norm_num) 1]; norm_num [kfreq]
  have hx2 : kxES 4 (2 * Real.pi / ((4 : ℕ) : ℝ)) 2 = -2 := by
    rw [kxES_at 4 (by norm_num) 2]; norm_num [kfreq]
  have hx3 : kxES 4 (2 * Real.pi / ((4 : ℕ) : ℝ)) 3 = -1 := by
    rw [kxES_at 4 (by norm_num) 3]; norm_num [kfreq]
  have e00 : kkES 4 (2 * Real.pi / ((4 : ℕ) : ℝ)) 0 0 = Real.sqrt (2 / 10 ^ 12) := by
    simp only [kkES, hx0]; congr 1; norm_num
  have e01 : kkES 4 (2 * Real.pi / ((4 : ℕ) : ℝ)) 0 1 = Real.sqrt (1 + 1 / 10 ^ 12) := by
    simp only [kkES, hx0, hx1]; congr 1; norm_num
  have e02 : kkES 4 (2 * Real.pi / ((4 : ℕ) : ℝ)) 0 2 = Real.sqrt (4 + 1 / 10 ^ 12) := by
    simp only [kkES, hx0, hx2]; congr 1; norm_num
  have e03 : kkES 4 (2 * Real.pi / ((4 : ℕ) : ℝ)) 0 3 = Real.sqrt (1 + 1 / 10 ^ 12) := by
    simp only [kkES, hx0, hx3]; congr 1; norm_num
  have e10 : kkES 4 (2 * Real.pi / ((4 : ℕ) : ℝ)) 1 0 = Real.sqrt (1 + 1 / 10 ^ 12) := by
    simp only [kkES, hx1, hx0]; congr 1; norm_num
  have e11 : kkES 4 (2 * Real.pi / ((4 : ℕ) : ℝ)) 1 1 = Real.sqrt 2 := by
    simp only [kkES, hx1]; congr 1; norm_num
  have e12 : kkES 4 (2 * Real.pi / ((4 : ℕ) : ℝ)) 1 2 = Real.sqrt 5 := by
    simp only [kkES, hx1, hx2]; congr 1; norm_num
  have e13 : kkES 4 (2 * Real.pi / ((4 : ℕ) : ℝ)) 1 3 = Real.sqrt 2 := by
    simp only [kkES, hx1, hx3]; congr 1; norm_num
  have e20 : kkES 4 (2 * Real.pi / ((4 : ℕ) : ℝ)) 2 0 = Real.sqrt (4 + 1 / 10 ^ 12) := by
    simp only [kkES, hx2, hx0]; congr 1; norm_num
  have e21 : kkES 4 (2 * Real.pi / ((4 : ℕ) : ℝ)) 2 1 = Real.sqrt 5 := by
    simp only [kkES, hx2, hx1]; congr 1; norm_num
  have e22 : kkES 4 (2 * Real.pi / ((4 : ℕ) : ℝ)) 2 2 = Real.sqrt 8 := by
    simp only [kkES, hx2]; congr 1; norm_num
  have e23 : kkES 4 (2 * Real.pi / ((4 : ℕ) : ℝ)) 2 3 = Real.sqrt 5 := by
    simp only [kkES, hx2, hx3]; congr 1; norm_num
  have e30 : kkES 4 (2 * Real.pi / ((4 : ℕ) : ℝ)) 3 0 = Real.sqrt (1 + 1 / 10 ^ 12) := by
    simp only [kkES, hx3, hx0]; congr 1; norm_num
  have e31 : kkES 4 (2 * Real.pi / ((4 : ℕ) : ℝ)) 3 1 = Real.sqrt 2 := by
    simp only [kkES, hx3, hx1]; congr 1; norm_num
  have e32 : kkES 4 (2 * Real.pi / ((4 : ℕ) : ℝ)) 3 2 = Real.sqrt 5 := by
    simp only [kkES, hx3, hx2]; congr 1; norm_num
  have e33 : kkES 4 (2 * Real.pi / ((4 : ℕ) : ℝ)) 3 3 = Real.sqrt 2 := by
    simp only [kkES, hx3]; congr 1; norm_num
  have c2t : (((1 : ℝ) - 1 / 2 < Real.sqrt 2 ∧ Real.sqrt 2 < (1 : ℝ) + 1 / 2)) = True :=
    eq_true (band1_in 2 (by norm_num) (by norm_num))
  have cAt : (((1 : ℝ) - 1 / 2 < Real.sqrt (1 + 1 / 10 ^ 12) ∧
      Real.sqrt (1 + 1 / 10 ^ 12) < (1 : ℝ) + 1 / 2)) = True :=
    eq_true (band1_in _ (by norm_num) (by norm_num))
  have c5f : (((1 : ℝ) - 1 / 2 < Real.sqrt 5 ∧ Real.sqrt 5 < (1 : ℝ) + 1 / 2)) = False :=
    eq_false (band1_out_high 5 (by norm_num))
  have c8f : (((1 : ℝ) - 1 / 2 < Real.sqrt 8 ∧ Real.sqrt 8 < (1 : ℝ) + 1 / 2)) = False :=
    eq_false (band1_out_high 8 (by norm_num))
  have c4f : (((1 : ℝ) - 1 / 2 < Real.sqrt (4 + 1 / 10 ^ 12) ∧
      Real.sqrt (4 + 1 / 10 ^ 12) < (1 : ℝ) + 1 / 2)) = False :=
    eq_false (band1_out_high _ (by norm_num))
  have c0f : (((1 : ℝ) - 1 / 2 < Real.sqrt (2 / 10 ^ 12) ∧
      Real.sqrt (2 / 10 ^ 12) < (1 : ℝ) + 1 / 2)) = False :=
    eq_false (band1_out_low _ (by norm_num))
  have hes : ∀ x y : ℕ, esField 4 (2 * Real.pi / ((4 : ℕ) : ℝ)) deltaW x y =
      Real.pi * (1 / 16) ^ 2 / kkES 4 (2 * Real.pi / ((4 : ℕ) : ℝ)) x y := by
    intro x y
    rw [esField, fft2_delta]
    norm_num
  have hcard : (shellSet 4 (2 * Real.pi / ((4 : ℕ) : ℝ)) 1).card = 4 := by
    rw [shellSet, Finset.card_filter, Finset.sum_product]
    dsimp only
    simp only [Finset.sum_Ico_eq_sum_range, Finset.sum_range_succ, Finset.sum_range_zero]
    simp only [show (1 + 0 : ℕ) = 1 from rfl, show (1 + 1 : ℕ) = 2 from rfl,
      show (1 + 2 : ℕ) = 3 from rfl, Nat.cast_one]
    simp only [e11, e12, e13, e21, e22, e23, e31, e32, e33]
    simp only [c2t, c5f, c8f, if_true, if_false]
    norm_num
  have hsum : (∑ p ∈ shellSet 4 (2 * Real.pi / ((4 : ℕ) : ℝ)) 1,
      esField 4 (2 * Real.pi / ((4 : ℕ) : ℝ)) deltaW p.1 p.2) =
      4 * (Real.pi * (1 / 16) ^ 2 / Real.sqrt 2) := by
    rw [shellSet, Finset.sum_filter, Finset.sum_product]
    dsimp only
    simp only [Finset.sum_Ico_eq_sum_range, Finset.sum_range_succ, Finset.sum_range_zero]
    simp only [show (1 + 0 : ℕ) = 1 from rfl, show (1 + 1 : ℕ) = 2 from rfl,
      show (1 + 2 : ℕ) = 3 from rfl, Nat.cast_one]
    simp only [hes]
    simp only [e11, e12, e13, e21, e22, e23, e31, e32, e33]
    simp only [c2t, c5f, c8f, if_true, if_false]
    ring
  have hcode : enES 4 (2 * Real.pi / ((4 : ℕ) : ℝ)) deltaW 1 =
      Real.pi * (1 / 16) ^ 2 / Real.sqrt 2 := by
    rw [enES, hsum, hcard]
    push_cast
    ring
  have hccard : (((Finset.range 4 ×ˢ Finset.range 4).filter fun p =>
      (1 : ℝ) - 1 / 2 < kkES 4 (2 * Real.pi / ((4 : ℕ) : ℝ)) p.1 p.2 ∧
      kkES 4 (2 * Real.pi / ((4 : ℕ) : ℝ)) p.1 p.2 < (1 : ℝ) + 1 / 2).card) = 8 := by
    rw [Finset.card_filter, Finset.sum_product]
    dsimp only
    simp only [Finset.sum_range_succ, Finset.sum_range_zero]
    simp only [e00, e01, e02, e03, e10, e11, e12, e13, e20, e21, e22, e23,
      e30, e31, e32, e33]
    simp only [c2t, cAt, c5f, c8f, c4f, c0f, if_true, if_false]
    norm_num
  have hcsum : (∑ p ∈ (Finset.range 4 ×ˢ Finset.range 4).filter fun p =>
      (1 : ℝ) - 1 / 2 < kkES 4 (2 * Real.pi / ((4 : ℕ) : ℝ)) p.1 p.2 ∧
      kkES 4 (2 * Real.pi / ((4 : ℕ) : ℝ)) p.1 p.2 < (1 : ℝ) + 1 / 2,
        Real.pi *
          Complex.abs (fft2 4 4 (fun a b => ((deltaW a b : ℝ) : ℂ)) p.1 p.2) ^ 2 /
          (((4 : ℝ) * 4) * kkES 4 (2 * Real.pi / ((4 : ℕ) : ℝ)) p.1 p.2)) =
      4 * (Real.pi / (16 * Real.sqrt 2)) +
        4 * (Real.pi / (16 * Real.sqrt (1 + 1 / 10 ^ 12))) := by
    rw [Finset.sum_filter, Finset.sum_product]
    dsimp only
    simp only [Finset.sum_range_succ, Finset.sum_range_zero]
    simp only [fft2_delta, map_one, one_pow]
    simp only [e00, e01, e02, e03, e10, e11, e12, e13, e20, e21, e22, e23,
      e30, e31, e32, e33]
    simp only [c2t, cAt, c5f, c8f, c4f, c0f, if_true, if_false]
    ring
  rw [hcode, hcsum, hccard]
  have hs2 : 0 < Real.sqrt 2 := Real.sqrt_pos.mpr (by norm_num)
  have hsA : 0 < Real.sqrt (1 + 1 / 10 ^ 12) := Real.sqrt_pos.mpr (by norm_num)
  have hp := Real.pi_pos
  refine ne_of_lt ?_
  have h8 : ((8 : ℕ) : ℝ) = 8 := by norm_num
  rw [h8]
  have hA : (4 * (Real.pi / (16 * Real.sqrt 2)) +
      4 * (Real.pi / (16 * Real.sqrt (1 + 1 / 10 ^ 12)))) / 8 =
      Real.pi / (32 * Real.sqrt 2) + Real.pi / (32 * Real.sqrt (1 + 1 / 10 ^ 12)) := by
    ring
  have hB : Real.pi * (1 / 16) ^ 2 / Real.sqrt 2 = Real.pi / (256 * Real.sqrt 2) := by
    ring
  rw [hA, hB]
  have h1 : Real.pi / (256 * Real.sqrt 2) < Real.pi / (32 * Real.sqrt 2) :=
    (div_lt_div_left hp (by positivity) (by positivity)).mpr (by nlinarith)
  have h2 : 0 < Real.pi / (32 * Real.sqrt (1 + 1 / 10 ^ 12)) := by positivity
  linarith

/-- C6 amended: the shell value `en[k]` is the average of the code's
density `pi*((|wf|/(N*N))^2)/|k|` over the modes in the band
`(k-1/2, k+1/2)` whose indices are BOTH at least 1 — the row-0 and
column-0 modes are excluded from every shell. -/
theorem C6_amended (n : ℕ) (dx : ℝ) (w : ℕ → ℕ → ℝ) (k : ℕ) :
    enES n dx w k =
      (∑ p ∈ (Finset.range n ×ˢ Finset.range n).filter fun p =>
            1 ≤ p.1 ∧ 1 ≤ p.2 ∧
            ((k : ℝ) - 1 / 2 < kkES n dx p.1 p.2 ∧
              kkES n dx p.1 p.2 < (k : ℝ) + 1 / 2),
          esField n dx w p.1 p.2) /
      ((((Finset.range n ×ˢ Finset.range n).filter fun p =>
            1 ≤ p.1 ∧ 1 ≤ p.2 ∧
            ((k : ℝ) - 1 / 2 < kkES n dx p.1 p.2 ∧
              kkES n dx p.1 p.2 < (k : ℝ) + 1 / 2)).card) : ℝ) := by
  have hset : shellSet n dx k =
      (Finset.range n ×ˢ Finset.range n).filter fun p =>
        1 ≤ p.1 ∧ 1 ≤ p.2 ∧
        ((k : ℝ) - 1 / 2 < kkES n dx p.1 p.2 ∧
          kkES n dx p.1 p.2 < (k : ℝ) + 1 / 2) := by
    apply Finset.ext
    rintro ⟨x, y⟩
    simp only [shellSet, Finset.mem_filter, Finset.mem_product, Finset.mem_Ico,
      Finset.mem_range]
    constructor
    · rintro ⟨⟨⟨hx1, hxn⟩, hy1, hyn⟩, hb⟩
      exact ⟨⟨hxn, hyn⟩, hx1, hy1, hb⟩
    · rintro ⟨⟨hxn, hyn⟩, hx1, hy1, hb⟩
      exact ⟨⟨⟨hx1, hxn⟩, hy1, hyn⟩, hb⟩
  rw [enES, hset]

end Turb2D
